import Mathlib

/-!
Verification of `enriquecer_conexiones.py` (notion-to-obsidian).

The Python source is shallowly embedded over `List Char`.  Character-level
primitives (`str.lower`, `\w`, `str.isalpha`, `str.strip`) are modelled over
the character set actually exercised by the program: ASCII plus the Spanish
letters appearing in the stopword list.  All definitions are executable.
-/

namespace NotionObsidian

/-- The accented Spanish lowercase letters used in the repository's stopwords. -/
def spanishLower : List Char := ['á', 'é', 'í', 'ó', 'ú', 'ñ', 'ü']

/-- Their uppercase counterparts. -/
def spanishUpper : List Char := ['Á', 'É', 'Í', 'Ó', 'Ú', 'Ñ', 'Ü']

/-- Model of Python `str.lower` on a single character (ASCII plus the Spanish
letters above; every other character maps to itself). -/
def pyLower (c : Char) : Char :=
  match c with
  | 'A' => 'a' | 'B' => 'b' | 'C' => 'c' | 'D' => 'd' | 'E' => 'e'
  | 'F' => 'f' | 'G' => 'g' | 'H' => 'h' | 'I' => 'i' | 'J' => 'j'
  | 'K' => 'k' | 'L' => 'l' | 'M' => 'm' | 'N' => 'n' | 'O' => 'o'
  | 'P' => 'p' | 'Q' => 'q' | 'R' => 'r' | 'S' => 's' | 'T' => 't'
  | 'U' => 'u' | 'V' => 'v' | 'W' => 'w' | 'X' => 'x' | 'Y' => 'y'
  | 'Z' => 'z'
  | 'Á' => 'á' | 'É' => 'é' | 'Í' => 'í' | 'Ó' => 'ó' | 'Ú' => 'ú'
  | 'Ñ' => 'ñ' | 'Ü' => 'ü'
  | c => c

/-- Model of Python `str.isalpha` on a character (ASCII letters plus the
Spanish letters of the stopword set). -/
def pyIsAlpha (c : Char) : Bool :=
  c.isAlpha || spanishLower.contains c || spanishUpper.contains c

/-- Model of the regex class `\w` (word character): letters, digits, `_`. -/
def pyIsWordChar (c : Char) : Bool :=
  pyIsAlpha c || c.isDigit || c = '_'

/-- Whitespace recognized by Python `str.strip`. -/
def pyIsSpace (c : Char) : Bool :=
  c = ' ' || c = '\t' || c = '\n' || c = '\r' || c = '\x0b' || c = '\x0c'

/-- `pyLower` never turns a character into a word character that was not one,
nor destroys word-character status. -/
theorem pyIsWordChar_pyLower (c : Char) : pyIsWordChar (pyLower c) = pyIsWordChar c := by
  unfold pyLower
  split <;> rfl

/-- `pyLower` preserves `pyIsAlpha`. -/
theorem pyIsAlpha_pyLower (c : Char) : pyIsAlpha (pyLower c) = pyIsAlpha c := by
  unfold pyLower
  split <;> rfl

/-- The frontmatter boundary token `---` of the markdown documents. -/
def dashes : List Char := ['-', '-', '-']

/-- Model of Python `s.split(sep, ...)`'s leftmost separator search: returns
the text before the first occurrence of `sep` and the text after it. -/
def pySplitSep (sep : List Char) : List Char → Option (List Char × List Char)
  | [] => none
  | c :: rest =>
    if sep.isPrefixOf (c :: rest) then some ([], (c :: rest).drop sep.length)
    else
      match pySplitSep sep rest with
      | none => none
      | some (a, r) => some (c :: a, r)

/-- Model of Python `content.split(sep, 2)`: split at the first two
non-overlapping occurrences of `sep`, producing at most three parts. -/
def pySplitMax2 (sep : List Char) (s : List Char) : List (List Char) :=
  match pySplitSep sep s with
  | none => [s]
  | some (a, r) =>
    match pySplitSep sep r with
    | none => [a, r]
    | some (b, r2) => [a, b, r2]

/-- Model of Python `str.strip`. -/
def pyStrip (s : List Char) : List Char :=
  ((s.dropWhile pyIsSpace).reverse.dropWhile pyIsSpace).reverse

/-- Model of `re.sub(r"[^\w]+$", "", word)`: delete the maximal trailing run
of non-word characters. -/
def stripTrailingNonWord (s : List Char) : List Char :=
  (s.reverse.dropWhile (fun c => !pyIsWordChar c)).reverse

/-- `normalize_word` (enriquecer_conexiones.py, lines 250-255):
lowercase, strip whitespace, delete trailing punctuation. -/
def normalizeWord (w : List Char) : List Char :=
  stripTrailingNonWord (pyStrip (w.map pyLower))

/-- `extract_body_text` (lines 241-247): split on the first `---` that closes
the YAML frontmatter; with at least three parts return the stripped third
part, otherwise the whole stripped content. -/
def extractBodyText (content : List Char) : List Char :=
  match pySplitMax2 dashes content with
  | [_, _, r] => pyStrip r
  | _ => pyStrip content

/-- Helper for `tokenize`: accumulates the current run of word characters
(reversed) while scanning. -/
def tokenizeAux (acc : List Char) : List Char → List (List Char)
  | [] => if acc.isEmpty then [] else [acc.reverse]
  | c :: rest =>
    if pyIsWordChar c then tokenizeAux (c :: acc) rest
    else if acc.isEmpty then tokenizeAux [] rest
    else acc.reverse :: tokenizeAux [] rest

/-- Model of `re.findall(r"\b\w+\b", text)`: the maximal runs of word
characters of `text`, in order of appearance. -/
def tokenize (s : List Char) : List (List Char) :=
  tokenizeAux [] s

/-- Configuration constant `MIN_WORD_LENGTH` (line 22). -/
def MIN_WORD_LENGTH : Nat := 4

/-- Configuration constant `MIN_FREQUENCY` (line 23). -/
def MIN_FREQUENCY : Nat := 2

/-- Configuration constant `TOP_N_WORDS` (line 24). -/
def TOP_N_WORDS : Nat := 20

/-- The `STOPWORDS` set (lines 27-238), transcribed in source order. -/
def STOPWORDS : List String :=
  ["con", "para", "por", "que", "del", "los", "las", "una", "uno", "este",
   "esta", "estos", "estas", "como", "más", "muy", "también", "pero", "sin",
   "sobre", "entre", "hasta", "desde", "hacia", "durante", "mediante",
   "puede", "pueden", "ser", "son", "tiene", "tienen", "hacer", "hace",
   "hacen", "decir", "dice", "ver", "vez", "año", "años", "día", "días",
   "caso", "casos", "parte", "partes", "forma", "formas", "manera",
   "maneras", "tipo", "tipos", "todo", "todos", "todas", "cada", "cual",
   "cuales", "cuando", "donde", "cualquier", "algunos", "algunas", "otro",
   "otros", "otra", "otras", "mismo", "misma", "mismos", "mismas", "solo",
   "sola", "solas", "tanto", "tanta", "tantos", "tantas", "menos", "mayor",
   "mayores", "menor", "menores", "mejor", "mejores", "peor", "peores",
   "nuevo", "nueva", "nuevos", "nuevas", "gran", "grande", "grandes",
   "pequeño", "pequeña", "pequeños", "pequeñas",
   "with", "that", "this", "the", "a", "an", "and", "or", "but", "for",
   "from", "have", "has", "had", "was", "were", "been", "being", "are",
   "is", "it", "its", "they", "them", "their", "there", "these", "those",
   "what", "which", "who", "when", "where", "why", "how", "can", "could",
   "should", "would", "will", "shall", "may", "might", "must", "about",
   "into", "onto", "upon", "within", "without", "through", "during",
   "before", "after", "above", "below", "under", "over", "between",
   "among", "while", "because", "although", "though", "however",
   "therefore", "thus", "hence", "more", "most", "less", "least", "other",
   "others", "another", "such", "same", "very", "much", "many", "some",
   "any", "all", "both", "each", "every", "none", "not", "no", "yes",
   "if", "then", "else", "also", "too", "either", "neither", "only",
   "just", "even", "still", "yet", "already", "again", "once", "twice",
   "here", "idea", "ideas"]

/-- Membership of a normalized word in `STOPWORDS`. -/
def isStopword (n : List Char) : Bool :=
  STOPWORDS.any (fun s => s.data == n)

/-- Python `str.isalpha`: nonempty and all alphabetic. -/
def pyIsAlphaStr (n : List Char) : Bool :=
  !n.isEmpty && n.all pyIsAlpha

/-- The filter applied to each normalized word inside `extract_words`
(lines 266-271): minimum length, not a stopword, only letters. -/
def keepWord (n : List Char) : Bool :=
  decide (MIN_WORD_LENGTH ≤ n.length) && !isStopword n && pyIsAlphaStr n

/-- `extract_words` (lines 258-274): tokenize the lowercased text, normalize
each token, and append it to the result when it passes the filter. -/
def extractWords (text : List Char) : List (List Char) :=
  (tokenize (text.map pyLower)).foldl
    (fun filtered w =>
      let n := normalizeWord w
      if keepWord n then filtered ++ [n] else filtered)
    []

/-- One step of the `Counter(all_words)` construction: increment the count of
`w`, first occurrences appended at the end (Python dicts preserve insertion
order, so `Counter.items()` enumerates keys in first-encountered order). -/
def bump : List (List Char × Nat) → List Char → List (List Char × Nat)
  | [], w => [(w, 1)]
  | (x, c) :: rest, w =>
    if x = w then (x, c + 1) :: rest else (x, c) :: bump rest w

/-- `Counter(all_words).items()` in first-encountered order. -/
def counterItems (ws : List (List Char)) : List (List Char × Nat) :=
  ws.foldl bump []

/-- Stable insertion for a descending sort keyed by `f`: the new element goes
after every element with a key at least as large. -/
def insertStable (f : α → Nat) (x : α) : List α → List α
  | [] => [x]
  | y :: ys => if f x ≤ f y then y :: insertStable f x ys else x :: y :: ys

/-- Stable sort, descending by key `f`.  Python's `list.sort`/`sorted` with
`reverse=True` is stable and sorts descending by the key; a stable descending
sort is extensionally unique, so this insertion sort is a faithful model
(sortedness and stability are proved below). -/
def sortDescBy (f : α → Nat) (l : List α) : List α :=
  l.foldl (fun acc x => insertStable f x acc) []

/-- A markdown file presented to `find_frequent_words`: its name and the
result of `read_text` (reading may raise, modelled by `Except`). -/
abbrev MdFile := String × Except String String

/-- One iteration of the `for md_file in markdown_files` loop of
`find_frequent_words` (lines 282-290): `read_text` succeeding extends
`all_words` with the words of the body; an exception appends
`(md_file.name, str(e))` to `errors` and the file is skipped. -/
def gatherStep (acc : List (List Char) × List (String × String)) (f : MdFile) :
    List (List Char) × List (String × String) :=
  match f.2 with
  | .ok content => (acc.1 ++ extractWords (extractBodyText content.data), acc.2)
  | .error e => (acc.1, acc.2 ++ [(f.1, e)])

/-- The whole reading loop of `find_frequent_words` (lines 279-290). -/
def gatherWordsAndErrors (files : List MdFile) :
    List (List Char) × List (String × String) :=
  files.foldl gatherStep ([], [])

/-- Whether `read_text` succeeds on a file. -/
def readOk (f : MdFile) : Bool :=
  match f.2 with
  | .ok _ => true
  | .error _ => false

/-- `find_frequent_words` (lines 277-304): count the gathered words, keep
those reaching `MIN_FREQUENCY`, sort by count descending (stable), and
truncate to `TOP_N_WORDS`. -/
def findFrequentWords (files : List MdFile) : List (List Char × Nat) :=
  let allWords := (gatherWordsAndErrors files).1
  let wordCounts := counterItems allWords
  let frequent := wordCounts.filter (fun p => MIN_FREQUENCY ≤ p.2)
  (sortDescBy Prod.snd frequent).take TOP_N_WORDS

/-- The opening marker sequence `[[`. -/
def openBr : List Char := ['[', '[']

/-- The closing marker sequence `]]`. -/
def closeBr : List Char := [']', ']']

/-- Python substring containment (`pat in s`). -/
def containsSeq (pat : List Char) : List Char → Bool
  | [] => pat.isEmpty
  | c :: rest => pat.isPrefixOf (c :: rest) || containsSeq pat rest

/-- Scanner for the regex fragment `[^\]]+\]\]` after its first character:
collect further non-`]` characters until an immediately following `]]`.
Backtracking cannot help the greedy `[^\]]+` here, because shortening the
run only exposes another non-`]` character, so this scan is exact. -/
def grabRest : List Char → Option (List Char × List Char)
  | [] => none
  | c :: rest =>
    if c = ']' then
      if rest.head? = some ']' then some ([], rest.tail) else none
    else (grabRest rest).map (fun p => (c :: p.1, p.2))

/-- Scanner for `[^\]]+\]\]`: at least one non-`]` character, then `]]`.
Returns the content and the text after the closing `]]`. -/
def grabContent : List Char → Option (List Char × List Char)
  | [] => none
  | c :: rest =>
    if c = ']' then none
    else (grabRest rest).map (fun p => (c :: p.1, p.2))

/-- Match of the wikilink regex `\[\[[^\]]+\]\]` anchored at the start of the
text; returns the whole match and the remaining text. -/
def markerAt : List Char → Option (List Char × List Char)
  | c1 :: c2 :: r2 =>
    if c1 = '[' ∧ c2 = '[' then
      match grabContent r2 with
      | some (content, tail) =>
        some ('[' :: '[' :: (content ++ ']' :: ']' :: []), tail)
      | none => none
    else none
  | _ => none

/-- Leftmost match of the wikilink regex: returns
(text before the match, the match, text after the match). -/
def findWiki : List Char → Option (List Char × List Char × List Char)
  | [] => none
  | c :: rest =>
    match markerAt (c :: rest) with
    | some (m, tail) => some ([], m, tail)
    | none => (findWiki rest).map (fun t => (c :: t.1, t.2.1, t.2.2))

/-- Fuel-driven model of `re.split(f"({existing_wikilink_pattern})", text)`:
alternating plain parts and wikilink matches (plain parts may be empty).
Each found marker is at least five characters long, so `s.length` fuel is
always sufficient. -/
def reSplitWikiAux : Nat → List Char → List (List Char)
  | 0, s => [s]
  | fuel + 1, s =>
    match findWiki s with
    | none => [s]
    | some (pre, m, rest) => pre :: m :: reSplitWikiAux fuel rest

/-- `re.split` on the wikilink pattern with its capture group kept. -/
def reSplitWiki (s : List Char) : List (List Char) :=
  reSplitWikiAux s.length s

/-- `re.match(existing_wikilink_pattern, part)` (line 322): does a wikilink
match start at position 0 of the part? -/
def wikiAtStart (s : List Char) : Bool :=
  (markerAt s).isSome

/-- `modified_part[max(0, start - 2) : start]` (line 341). -/
def windowBefore (orig : List Char) (pos : Nat) : List Char :=
  (orig.take pos).drop (pos - 2)

/-- `modified_part[end : min(len(modified_part), end + 2)]` (line 342). -/
def windowAfter (orig : List Char) (pos : Nat) : List Char :=
  (orig.drop pos).take 2

/-- `replace_func` (lines 336-346): wrap the matched text in `[[...]]` unless
the two characters before the match contain `[[` or the two characters after
it contain `]]`. -/
def replaceDecision (orig : List Char) (start fin : Nat) (matched : List Char) :
    List Char :=
  if containsSeq openBr (windowBefore orig start)
      || containsSeq closeBr (windowAfter orig fin) then matched
  else '[' :: '[' :: (matched ++ ']' :: ']' :: [])

/-- Case-insensitive literal prefix test (`re.IGNORECASE` on an escaped
word). -/
def ciIsPrefixOf : List Char → List Char → Bool
  | [], _ => true
  | _ :: _, [] => false
  | a :: ta, b :: tb => (pyLower a = pyLower b) && ciIsPrefixOf ta tb

/-- Word-character status of an optional character (`none` = outside the
text, which counts as a non-word position for `\b`). -/
def isWordOpt : Option Char → Bool
  | none => false
  | some c => pyIsWordChar c

/-- The regex `\b`: a boundary lies between two positions of different
word-character status. -/
def wordBoundary (l r : Option Char) : Bool :=
  isWordOpt l != isWordOpt r

/-- Fuel-driven scan of `re.sub(pattern, replace_func, modified_part, flags=
re.IGNORECASE)` with `pattern = r"\b" + re.escape(word) + r"\b"`: walk the
original text; at each position test for a word-boundary-delimited
case-insensitive occurrence of `word`; on a match emit `replace_func`'s
output and resume after the match (re.sub scans the original string, so the
lookaround windows read the original segment). -/
def subScanAux (w : List Char) (orig : List Char) :
    Nat → Option Char → Nat → List Char → List Char
  | 0, _, _, s => s
  | _ + 1, _, _, [] => []
  | fuel + 1, prev, pos, c :: rest =>
    let s := c :: rest
    if wordBoundary prev (some c) && ciIsPrefixOf w s
        && wordBoundary (s.take w.length).getLast? (s.drop w.length).head? then
      let matched := s.take w.length
      replaceDecision orig pos (pos + w.length) matched
        ++ subScanAux w orig fuel matched.getLast? (pos + w.length) (s.drop w.length)
    else
      c :: subScanAux w orig fuel (some c) (pos + 1) rest

/-- One `re.sub` pass for a single word (lines 332-351).  An empty word would
be a zero-width pattern in Python; the model leaves the segment unchanged in
that degenerate case. -/
def subWord (w : List Char) (seg : List Char) : List Char :=
  if w.isEmpty then seg else subScanAux w seg (seg.length + 1) none 0 seg

/-- `sorted(words_to_link, key=len, reverse=True)` (line 330). -/
def sortWordsDesc (words : List (List Char)) : List (List Char) :=
  sortDescBy List.length words

/-- The per-part word loop of `add_wikilinks_to_text` (lines 325-351). -/
def processPlain (part : List Char) (words : List (List Char)) : List Char :=
  (sortWordsDesc words).foldl (fun modified w => subWord w modified) part

/-- `"".join(result_parts)` (line 354). -/
def joinParts (parts : List (List Char)) : List Char :=
  parts.foldr (· ++ ·) []

/-- `add_wikilinks_to_text` (lines 307-354): split on existing wikilinks,
pass wikilink parts through unchanged, run the word substitutions on the
remaining parts, and re-join. -/
def addWikilinksToText (text : List Char) (words : List (List Char)) : List Char :=
  joinParts ((reSplitWiki text).map
    (fun part => if wikiAtStart part then part else processPlain part words))

/-- `process_markdown_file` (lines 357-386), with the filesystem write
modelled by the returned value: `none` means the file is left untouched
(the function returned `False`), `some out` means `out` is written. -/
def processMarkdownFile (content : List Char) (words : List (List Char)) :
    Option (List Char) :=
  match pySplitMax2 dashes content with
  | [a, b, r] =>
    let frontmatter := a ++ dashes ++ b ++ dashes
    let newBody := addWikilinksToText r words
    if newBody = r then none else some (frontmatter ++ '\n' :: newBody)
  | _ =>
    let newBody := addWikilinksToText content words
    if newBody = content then none else some newBody

/-- The header/body separation performed by `process_markdown_file`
(lines 363-372): with three parts the header is
`parts[0] + "---" + parts[1] + "---"` and the body `parts[2]`; otherwise
there is no header and the body is the whole document. -/
def splitDoc (content : List Char) : Option (List Char) × List Char :=
  match pySplitMax2 dashes content with
  | [a, b, r] => (some (a ++ dashes ++ b ++ dashes), r)
  | _ => (none, content)

theorem pySplitSep_eq_some {sep s a r : List Char}
    (h : pySplitSep sep s = some (a, r)) : s = a ++ sep ++ r := by
  induction s generalizing a with
  | nil => simp [pySplitSep] at h
  | cons c rest ih =>
    rw [pySplitSep] at h
    by_cases hp : sep.isPrefixOf (c :: rest)
    · rw [if_pos hp] at h
      obtain ⟨t, ht⟩ := List.isPrefixOf_iff_prefix.mp hp
      injection h with h'
      injection h' with h1 h2
      subst h1
      rw [← h2, ← ht, List.drop_left]
      simp
    · rw [if_neg hp] at h
      cases hrec : pySplitSep sep rest with
      | none => rw [hrec] at h; exact absurd h (by simp)
      | some p =>
        obtain ⟨a', r'⟩ := p
        rw [hrec] at h
        injection h with h'
        injection h' with h1 h2
        subst h2
        rw [← h1, List.cons_append, List.cons_append, ih hrec]

/-- The leftmost split on `sep` of a text starting with `sep`. -/
theorem pySplitSep_self (sep y : List Char) (hs : sep ≠ []) :
    pySplitSep sep (sep ++ y) = some ([], y) := by
  cases sep with
  | nil => exact absurd rfl hs
  | cons d sep' =>
    have hp : (d :: sep').isPrefixOf (d :: (sep' ++ y)) = true := by
      rw [← List.cons_append]
      exact List.isPrefixOf_iff_prefix.mpr (List.prefix_append _ _)
    rw [List.cons_append, pySplitSep, if_pos hp, ← List.cons_append, List.drop_left]

theorem pySplitSep_append_isSome {sep : List Char} (hs : sep ≠ [])
    (x y : List Char) : (pySplitSep sep (x ++ sep ++ y)).isSome := by
  induction x with
  | nil =>
    rw [List.nil_append, pySplitSep_self sep y hs]
    rfl
  | cons c x' ih =>
    rw [List.cons_append, List.cons_append, pySplitSep]
    by_cases hp : sep.isPrefixOf (c :: (x' ++ sep ++ y))
    · rw [if_pos hp]; rfl
    · rw [if_neg hp]
      cases hrec : pySplitSep sep (x' ++ sep ++ y) with
      | none => rw [hrec] at ih; exact absurd ih (by simp)
      | some p => rfl

theorem pySplitSep_append_suffix {sep : List Char} (hs : sep ≠ [])
    {x y a r : List Char} (h : pySplitSep sep (x ++ sep ++ y) = some (a, r)) :
    ∃ t, r = t ++ y := by
  induction x generalizing a with
  | nil =>
    rw [List.nil_append, pySplitSep_self sep y hs] at h
    injection h with h'
    injection h' with h1 h2
    exact ⟨[], by rw [← h2]; rfl⟩
  | cons c x' ih =>
    rw [List.cons_append, List.cons_append, pySplitSep] at h
    by_cases hp : sep.isPrefixOf (c :: (x' ++ sep ++ y))
    · rw [if_pos hp] at h
      injection h with h'
      injection h' with h1 h2
      refine ⟨((c :: x') ++ sep).drop sep.length, ?_⟩
      have heq : c :: (x' ++ sep ++ y) = ((c :: x') ++ sep) ++ y := by
        simp
      rw [← h2, heq, List.drop_append_eq_append_drop,
        Nat.sub_eq_zero_of_le (by simp; omega), List.drop_zero]
    · rw [if_neg hp] at h
      cases hrec : pySplitSep sep (x' ++ sep ++ y) with
      | none => rw [hrec] at h; exact absurd h (by simp)
      | some p =>
        obtain ⟨a', r'⟩ := p
        rw [hrec] at h
        injection h with h'
        injection h' with h1 h2
        subst h2
        exact ih hrec

/-- If a document decomposes around two boundary occurrences, the Python
`split("---", 2)` produces three parts. -/
theorem pySplitMax2_of_twice {x y z content : List Char}
    (hc : content = x ++ dashes ++ y ++ dashes ++ z) :
    ∃ a b r, pySplitMax2 dashes content = [a, b, r] := by
  subst hc
  have hs : dashes ≠ [] := by simp [dashes]
  have hassoc : x ++ dashes ++ y ++ dashes ++ z
      = x ++ dashes ++ (y ++ dashes ++ z) := by
    simp [List.append_assoc]
  have h1 : (pySplitSep dashes (x ++ dashes ++ y ++ dashes ++ z)).isSome := by
    rw [hassoc]; exact pySplitSep_append_isSome hs x (y ++ dashes ++ z)
  cases hfst : pySplitSep dashes (x ++ dashes ++ y ++ dashes ++ z) with
  | none => rw [hfst] at h1; exact absurd h1 (by simp)
  | some p =>
    obtain ⟨a, r1⟩ := p
    rw [hassoc] at hfst
    obtain ⟨t, ht⟩ := pySplitSep_append_suffix hs hfst
    have h2 : (pySplitSep dashes r1).isSome := by
      rw [ht]
      have h2assoc : t ++ (y ++ dashes ++ z) = (t ++ y) ++ dashes ++ z := by
        simp [List.append_assoc]
      rw [h2assoc]
      exact pySplitSep_append_isSome hs (t ++ y) z
    cases hsnd : pySplitSep dashes r1 with
    | none => rw [hsnd] at h2; exact absurd h2 (by simp)
    | some q =>
      obtain ⟨b, r2⟩ := q
      refine ⟨a, b, r2, ?_⟩
      rw [← hassoc] at hfst
      simp only [pySplitMax2, hfst, hsnd]

/-- Three parts decompose the document as `a ++ "---" ++ b ++ "---" ++ r`. -/
theorem pySplitMax2_decomp {sep s a b r : List Char}
    (h : pySplitMax2 sep s = [a, b, r]) :
    s = a ++ sep ++ b ++ sep ++ r := by
  rw [pySplitMax2] at h
  cases hfst : pySplitSep sep s with
  | none => simp only [hfst] at h; simp at h
  | some p =>
    obtain ⟨a', r1⟩ := p
    simp only [hfst] at h
    cases hsnd : pySplitSep sep r1 with
    | none => simp only [hsnd] at h; simp at h
    | some q =>
      obtain ⟨b', r2⟩ := q
      simp only [hsnd] at h
      injection h with h1 h'
      injection h' with h2 h''
      injection h'' with h3 _
      subst h1; subst h2; subst h3
      rw [pySplitSep_eq_some hfst, pySplitSep_eq_some hsnd]
      simp [List.append_assoc]

/-- The Python `split` separator search is leftmost: no occurrence of the
separator starts anywhere inside the part before the split. -/
theorem pySplitSep_leftmost {sep s a r : List Char}
    (h : pySplitSep sep s = some (a, r)) :
    ∀ i, i < a.length → sep.isPrefixOf (s.drop i) = false := by
  induction s generalizing a with
  | nil => simp [pySplitSep] at h
  | cons c rest ih =>
    rw [pySplitSep] at h
    by_cases hp : sep.isPrefixOf (c :: rest)
    · rw [if_pos hp] at h
      injection h with h'
      injection h' with h1 _
      intro i hi
      rw [← h1] at hi
      simp at hi
    · rw [if_neg hp] at h
      cases hrec : pySplitSep sep rest with
      | none => rw [hrec] at h; simp at h
      | some p =>
        obtain ⟨a', r'⟩ := p
        rw [hrec] at h
        injection h with h'
        injection h' with h1 h2
        subst h2
        intro i hi
        rw [← h1, List.length_cons] at hi
        cases i with
        | zero =>
          rw [List.drop_zero]
          simp only [Bool.not_eq_true] at hp
          exact hp
        | succ i' =>
          rw [List.drop_succ_cons]
          exact ih hrec i' (by omega)

/-- Three parts arise from two successive leftmost splits. -/
theorem pySplitMax2_eq_three {sep s a b r : List Char}
    (h : pySplitMax2 sep s = [a, b, r]) :
    ∃ r1, pySplitSep sep s = some (a, r1) ∧ pySplitSep sep r1 = some (b, r) := by
  rw [pySplitMax2] at h
  cases hfst : pySplitSep sep s with
  | none => simp only [hfst] at h; simp at h
  | some p =>
    obtain ⟨a', r1⟩ := p
    simp only [hfst] at h
    cases hsnd : pySplitSep sep r1 with
    | none => simp only [hsnd] at h; simp at h
    | some q =>
      obtain ⟨b', r2⟩ := q
      simp only [hsnd] at h
      injection h with h1 h'
      injection h' with h2 h''
      injection h'' with h3 _
      subst h1; subst h2; subst h3
      exact ⟨r1, rfl, hsnd⟩

theorem splitDoc_of_three {content a b r : List Char}
    (hm : pySplitMax2 dashes content = [a, b, r]) :
    splitDoc content = (some (a ++ dashes ++ b ++ dashes), r) := by
  simp only [splitDoc, hm]

theorem splitDoc_of_not_three (content : List Char)
    (h : ∀ a b r, pySplitMax2 dashes content ≠ [a, b, r]) :
    splitDoc content = (none, content) := by
  unfold splitDoc
  cases hm : pySplitMax2 dashes content with
  | nil => rfl
  | cons p1 l1 =>
    cases l1 with
    | nil => rfl
    | cons p2 l2 =>
      cases l2 with
      | nil => rfl
      | cons p3 l3 =>
        cases l3 with
        | nil => exact absurd hm (h p1 p2 p3)
        | cons p4 l4 => rfl

theorem extractBodyText_eq_splitDoc (content : List Char) :
    extractBodyText content = pyStrip (splitDoc content).2 := by
  unfold extractBodyText splitDoc
  cases pySplitMax2 dashes content with
  | nil => rfl
  | cons p1 l1 =>
    cases l1 with
    | nil => rfl
    | cons p2 l2 =>
      cases l2 with
      | nil => rfl
      | cons p3 l3 =>
        cases l3 with
        | nil => rfl
        | cons p4 l4 => rfl

/-- C4, counterexample: the claim requires a header if and only if the
document *begins* with the boundary sequence occurring twice, but
`"a---b---c"` does not even start with `---` and the splitter still
produces the header `"a---b---"`. -/
theorem claim_C4_counterexample :
    dashes.isPrefixOf "a---b---c".toList = false
    ∧ splitDoc "a---b---c".toList = (some "a---b---".toList, "c".toList) := by
  constructor
  · decide
  · decide

/-- C4, amended: the splitter yields a header exactly when the document
*contains* the boundary sequence `---` at least twice (the occurrences need
not be at the start).  When it does, the header decomposes as
`a ++ "---" ++ b ++ "---"` where the first boundary is the leftmost
occurrence in the whole document (no occurrence starts inside `a`) and the
second is the leftmost occurrence after the first (no occurrence starts
inside `b`); the body is everything after the second boundary and
`header ++ body` recomposes the document, so a header implies the document
contains the boundary twice.  Otherwise the header is absent and the body is
the entire document.  `extract_body_text` returns the stripped body of the
same split. -/
theorem claim_C4 (content : List Char) :
    (∀ hd, (splitDoc content).1 = some hd →
      content = hd ++ (splitDoc content).2
      ∧ ∃ a b, hd = a ++ dashes ++ b ++ dashes
        ∧ (∀ i, i < a.length → dashes.isPrefixOf (content.drop i) = false)
        ∧ (∀ j, j < b.length →
            dashes.isPrefixOf
              ((b ++ dashes ++ (splitDoc content).2).drop j) = false))
    ∧ ((splitDoc content).1 = none →
      (splitDoc content).2 = content
        ∧ ¬ ∃ x y z, content = x ++ dashes ++ y ++ dashes ++ z)
    ∧ ((∃ x y z, content = x ++ dashes ++ y ++ dashes ++ z) →
      ∃ hd, (splitDoc content).1 = some hd)
    ∧ extractBodyText content = pyStrip (splitDoc content).2 := by
  refine ⟨?_, ?_, ?_, extractBodyText_eq_splitDoc content⟩
  · intro hd hsome
    by_cases h3 : ∃ a b r, pySplitMax2 dashes content = [a, b, r]
    · obtain ⟨a, b, r, hm⟩ := h3
      obtain ⟨r1, hfst, hsnd⟩ := pySplitMax2_eq_three hm
      rw [splitDoc_of_three hm] at hsome ⊢
      injection hsome with hhd
      refine ⟨by rw [← hhd, pySplitMax2_decomp hm], a, b, hhd.symm, ?_, ?_⟩
      · exact pySplitSep_leftmost hfst
      · intro j hj
        rw [← pySplitSep_eq_some hsnd]
        exact pySplitSep_leftmost hsnd j hj
    · push_neg at h3
      rw [splitDoc_of_not_three content h3] at hsome
      simp at hsome
  · intro hnone
    by_cases h3 : ∃ a b r, pySplitMax2 dashes content = [a, b, r]
    · obtain ⟨a, b, r, hm⟩ := h3
      rw [splitDoc_of_three hm] at hnone
      simp at hnone
    · constructor
      · push_neg at h3
        rw [splitDoc_of_not_three content h3]
      · rintro ⟨x, y, z, hc⟩
        exact h3 (pySplitMax2_of_twice hc)
  · rintro ⟨x, y, z, hc⟩
    obtain ⟨a, b, r, hm⟩ := pySplitMax2_of_twice hc
    exact ⟨a ++ dashes ++ b ++ dashes, by rw [splitDoc_of_three hm]⟩

/-- C4, witness: on `"---x---body"` the amended theorem yields a header, and
on `"a---b---c"` (boundaries away from the start) it yields the
decomposition `"a" ++ "---" ++ "b" ++ "---"` with both boundary occurrences
leftmost. -/
theorem claim_C4_witness :
    (∃ hd, (splitDoc "---x---body".toList).1 = some hd)
    ∧ ("a---b---c".toList
          = "a---b---".toList ++ (splitDoc "a---b---c".toList).2
      ∧ ∃ a b, "a---b---".toList = a ++ dashes ++ b ++ dashes
        ∧ (∀ i, i < a.length →
            dashes.isPrefixOf ("a---b---c".toList.drop i) = false)
        ∧ (∀ j, j < b.length →
            dashes.isPrefixOf
              ((b ++ dashes ++ (splitDoc "a---b---c".toList).2).drop j)
              = false)) :=
  ⟨(claim_C4 "---x---body".toList).2.2.1 ⟨[], "x".toList, "body".toList, by decide⟩,
   (claim_C4 "a---b---c".toList).1 "a---b---".toList (by decide)⟩

/-- C3, counterexample: processing `"---a---data data"` writes
`"---a---\n[[data]] [[data]]"`; deleting the inserted brackets does not give
back the original, because a line break was inserted as well, so the byte
differences are not only the marker brackets. -/
theorem claim_C3_counterexample :
    processMarkdownFile "---a---data data".toList ["data".toList]
      = some "---a---\n[[data]] [[data]]".toList
    ∧ ("---a---\n[[data]] [[data]]".toList.filter (fun c => !(c = '[' || c = ']')))
      ≠ "---a---data data".toList := by
  constructor
  · decide
  · decide

/-- C3, amended: for every document with a structural header (three split
parts), the header block recomposes the document with the body, no character
of the header is altered in the written output (the output starts with the
very same header block), the output is written exactly when the annotated
body differs from the body, and the written output is the header, one
separating line break, and the annotated body — so the byte differences from
the original are the inserted marker brackets plus one inserted line break
between header and body. -/
theorem claim_C3 (content : List Char) (words : List (List Char))
    (a b r : List Char) (hm : pySplitMax2 dashes content = [a, b, r]) :
    content = (a ++ dashes ++ b ++ dashes) ++ r
    ∧ (processMarkdownFile content words = none
        ↔ addWikilinksToText r words = r)
    ∧ ∀ out, processMarkdownFile content words = some out →
        out = (a ++ dashes ++ b ++ dashes) ++ '\n' :: addWikilinksToText r words := by
  have hpm : processMarkdownFile content words
      = if addWikilinksToText r words = r then none
        else some ((a ++ dashes ++ b ++ dashes) ++ '\n' :: addWikilinksToText r words) := by
    simp only [processMarkdownFile, hm]
  refine ⟨pySplitMax2_decomp hm, ?_, ?_⟩
  · rw [hpm]
    by_cases hb : addWikilinksToText r words = r
    · simp [hb]
    · simp [hb]
  · intro out hout
    rw [hpm] at hout
    by_cases hb : addWikilinksToText r words = r
    · rw [if_pos hb] at hout
      exact absurd hout (by simp)
    · rw [if_neg hb] at hout
      injection hout with h'
      exact h'.symm

/-- C3, witness: the amended theorem applied to the document
`"---a---data data"` with term list `["data"]`. -/
theorem claim_C3_witness :
    "---a---data data".toList
        = (([] : List Char) ++ dashes ++ "a".toList ++ dashes) ++ "data data".toList
    ∧ (processMarkdownFile "---a---data data".toList ["data".toList] = none
        ↔ addWikilinksToText "data data".toList ["data".toList] = "data data".toList)
    ∧ ∀ out, processMarkdownFile "---a---data data".toList ["data".toList] = some out →
        out = (([] : List Char) ++ dashes ++ "a".toList ++ dashes)
          ++ '\n' :: addWikilinksToText "data data".toList ["data".toList] :=
  claim_C3 "---a---data data".toList ["data".toList] [] "a".toList "data data".toList
    (by decide)

theorem joinParts_cons (p : List Char) (L : List (List Char)) :
    joinParts (p :: L) = p ++ joinParts L := rfl

theorem joinParts_append (A B : List (List Char)) :
    joinParts (A ++ B) = joinParts A ++ joinParts B := by
  induction A with
  | nil => rfl
  | cons p A ih =>
    rw [List.cons_append, joinParts_cons, joinParts_cons, ih, List.append_assoc]

theorem grabRest_eq {s cs t : List Char} (h : grabRest s = some (cs, t)) :
    s = cs ++ ']' :: ']' :: t := by
  induction s generalizing cs with
  | nil => simp [grabRest] at h
  | cons c rest ih =>
    rw [grabRest] at h
    by_cases hc : c = ']'
    · subst hc
      rw [if_pos rfl] at h
      by_cases hh : rest.head? = some ']'
      · rw [if_pos hh] at h
        injection h with h'
        injection h' with h1 h2
        subst h2
        cases rest with
        | nil => simp at hh
        | cons c2 r2 =>
          injection hh with hh2
          subst hh2
          rw [← h1]
          rfl
      · rw [if_neg hh] at h
        simp at h
    · rw [if_neg hc] at h
      cases hr : grabRest rest with
      | none => rw [hr] at h; simp at h
      | some p =>
        obtain ⟨cs', t'⟩ := p
        rw [hr] at h
        simp only [Option.map] at h
        injection h with h'
        injection h' with h1 h2
        subst h2
        rw [← h1, List.cons_append, ih hr]

theorem grabContent_eq {s cs t : List Char} (h : grabContent s = some (cs, t)) :
    s = cs ++ ']' :: ']' :: t := by
  cases s with
  | nil => simp [grabContent] at h
  | cons c rest =>
    rw [grabContent] at h
    by_cases hc : c = ']'
    · rw [if_pos hc] at h; simp at h
    · rw [if_neg hc] at h
      cases hr : grabRest rest with
      | none => rw [hr] at h; simp at h
      | some p =>
        obtain ⟨cs', t'⟩ := p
        rw [hr] at h
        simp only [Option.map] at h
        injection h with h'
        injection h' with h1 h2
        subst h2
        rw [← h1, List.cons_append, grabRest_eq hr]

theorem markerAt_eq {s m t : List Char} (h : markerAt s = some (m, t)) :
    s = m ++ t ∧ m ≠ [] := by
  cases s with
  | nil => simp [markerAt] at h
  | cons c1 s1 =>
    cases s1 with
    | nil => simp [markerAt] at h
    | cons c2 r2 =>
      rw [markerAt] at h
      by_cases hbr : c1 = '[' ∧ c2 = '['
      · rw [if_pos hbr] at h
        obtain ⟨hb1, hb2⟩ := hbr
        subst hb1; subst hb2
        cases hg : grabContent r2 with
        | none => rw [hg] at h; simp at h
        | some p =>
          obtain ⟨content, tail⟩ := p
          rw [hg] at h
          injection h with h'
          injection h' with hm ht
          subst ht
          constructor
          · rw [← hm, grabContent_eq hg]
            simp
          · rw [← hm]; simp
      · rw [if_neg hbr] at h; simp at h

theorem findWiki_eq {s p m t : List Char} (h : findWiki s = some (p, m, t)) :
    s = p ++ m ++ t ∧ m ≠ [] := by
  induction s generalizing p with
  | nil => simp [findWiki] at h
  | cons c rest ih =>
    rw [findWiki] at h
    cases hma : markerAt (c :: rest) with
    | some q =>
      obtain ⟨m', t'⟩ := q
      rw [hma] at h
      rw [Option.some.injEq, Prod.mk.injEq, Prod.mk.injEq] at h
      obtain ⟨h1, h2, h3⟩ := h
      subst h1; subst h2; subst h3
      obtain ⟨he, hne⟩ := markerAt_eq hma
      exact ⟨by rw [List.nil_append]; exact he, hne⟩
    | none =>
      rw [hma] at h
      cases hrec : findWiki rest with
      | none => rw [hrec] at h; simp at h
      | some q =>
        obtain ⟨p', m', t'⟩ := q
        rw [hrec] at h
        simp only [Option.map] at h
        rw [Option.some.injEq, Prod.mk.injEq, Prod.mk.injEq] at h
        obtain ⟨h1, h2, h3⟩ := h
        subst h2; subst h3
        obtain ⟨he, hne⟩ := ih hrec
        refine ⟨?_, hne⟩
        rw [← h1, List.cons_append, List.cons_append, he]

theorem joinParts_reSplitWikiAux (fuel : Nat) (s : List Char) :
    joinParts (reSplitWikiAux fuel s) = s := by
  induction fuel generalizing s with
  | zero => simp [reSplitWikiAux, joinParts]
  | succ n ih =>
    rw [reSplitWikiAux]
    cases hf : findWiki s with
    | none => simp [joinParts]
    | some q =>
      obtain ⟨p, m, t⟩ := q
      rw [joinParts_cons, joinParts_cons, ih t, ← List.append_assoc]
      exact ((findWiki_eq hf).1).symm

theorem joinParts_reSplitWiki (s : List Char) : joinParts (reSplitWiki s) = s :=
  joinParts_reSplitWikiAux s.length s

/-- C9: annotating with an empty term list is the identity, because every
part of the split is passed through unchanged and the split recomposes the
text. -/
theorem claim_C9 (text : List Char) : addWikilinksToText text [] = text := by
  have hid : ∀ p : List Char,
      (if wikiAtStart p then p else processPlain p []) = p := by
    intro p
    have hnil : processPlain p [] = p := rfl
    rw [hnil, ite_self]
  simp only [addWikilinksToText, hid, List.map_id_fun', List.map_id']
  exact joinParts_reSplitWiki text

/-- Every part of the split that is a recognized wikilink appears unchanged,
in place, in the annotator's output. -/
theorem marker_part_infix (s : List Char) (words : List (List Char))
    (p : List Char) (hp : p ∈ reSplitWiki s) (hw : wikiAtStart p = true) :
    ∃ u v, addWikilinksToText s words = u ++ (p ++ v) := by
  obtain ⟨l1, l2, hsplit⟩ := List.append_of_mem hp
  refine ⟨joinParts (l1.map
      (fun part => if wikiAtStart part then part else processPlain part words)),
    joinParts (l2.map
      (fun part => if wikiAtStart part then part else processPlain part words)), ?_⟩
  rw [addWikilinksToText, hsplit, List.map_append, List.map_cons,
    joinParts_append, joinParts_cons]
  have hpp : (if wikiAtStart p then p else processPlain p words) = p := by
    rw [hw]
    simp
  rw [hpp]

/-- Boundary observation outside the analyzer's domain: with a term list
containing bracket characters (which no term extracted by the analyzer can
contain, since terms are alphabetic words), byte-identical idempotence of
the annotator fails — the body `"x a]b y"` is annotated to `"x [[a]b]] y"`
by one pass, and a second pass over that output produces
`"[[x [[a]b]] y]]"`.  For bracket-free terms no such effect is observed. -/
theorem bracket_term_defeats_idempotence :
    addWikilinksToText "x a]b y".toList ["x [[a]b]] y".toList, "a]b".toList]
      = "x [[a]b]] y".toList
    ∧ addWikilinksToText "x [[a]b]] y".toList ["x [[a]b]] y".toList, "a]b".toList]
      = "[[x [[a]b]] y]]".toList
    ∧ addWikilinksToText
        (addWikilinksToText "x a]b y".toList ["x [[a]b]] y".toList, "a]b".toList])
        ["x [[a]b]] y".toList, "a]b".toList]
      ≠ addWikilinksToText "x a]b y".toList ["x [[a]b]] y".toList, "a]b".toList] := by
  refine ⟨by decide, by decide, by decide⟩

/-- C2, counterexample: on the body `"[[x data"` (an unmatched opening
sequence followed by a term occurrence) the annotator outputs
`"[[x [[data]]"`, which the marker-detection rule itself recognizes as a
single reference marker whose content `"x [[data"` contains an opening
sequence `[[` and no closing sequence — a nested/overlapping marker. -/
theorem claim_C2_counterexample :
    addWikilinksToText "[[x data".toList ["data".toList] = "[[x [[data]]".toList
    ∧ markerAt "[[x [[data]]".toList
        = some ('[' :: '[' :: ("x [[data".toList ++ ']' :: ']' :: []), [])
    ∧ containsSeq openBr "x [[data".toList = true
    ∧ containsSeq closeBr "x [[data".toList = false := by
  refine ⟨by decide, by decide, by decide, by decide⟩

/-- C2, amended: the non-nesting half of the claim is false (see the
counterexample); the preservation half holds: every pre-existing well-formed
marker — every part of the input's marker/plain split recognized as a
wikilink — appears unchanged, in place, in the annotator's output, whatever
its contents. -/
theorem claim_C2 (text : List Char) (words : List (List Char)) (p : List Char)
    (hp : p ∈ reSplitWiki text) (hw : wikiAtStart p = true) :
    ∃ u v, addWikilinksToText text words = u ++ (p ++ v) :=
  marker_part_infix text words p hp hw

/-- C2, witness: the pre-existing marker `[[a]]` of `"[[a]] b"` appears
unchanged in the annotated output. -/
theorem claim_C2_witness :
    ∃ u v, addWikilinksToText "[[a]] b".toList ["b".toList]
      = u ++ ("[[a]]".toList ++ v) :=
  claim_C2 "[[a]] b".toList ["b".toList] "[[a]]".toList (by decide) (by decide)

section SortLemmas

variable {α : Type} (f : α → Nat)

theorem mem_insertStable (x a : α) (l : List α) :
    a ∈ insertStable f x l ↔ a = x ∨ a ∈ l := by
  induction l with
  | nil => simp [insertStable]
  | cons y ys ih =>
    rw [insertStable]
    by_cases h : f x ≤ f y
    · rw [if_pos h]
      simp only [List.mem_cons, ih]
      tauto
    · rw [if_neg h]
      simp only [List.mem_cons]

theorem insertStable_sorted (x : α) (l : List α)
    (hl : List.Pairwise (fun a b => f b ≤ f a) l) :
    List.Pairwise (fun a b => f b ≤ f a) (insertStable f x l) := by
  induction l with
  | nil => simp [insertStable]
  | cons y ys ih =>
    obtain ⟨hy, hys⟩ := List.pairwise_cons.mp hl
    rw [insertStable]
    by_cases h : f x ≤ f y
    · rw [if_pos h]
      refine List.pairwise_cons.mpr ⟨?_, ih hys⟩
      intro z hz
      rcases (mem_insertStable f x z ys).mp hz with rfl | hzys
      · exact h
      · exact hy z hzys
    · rw [if_neg h]
      refine List.pairwise_cons.mpr ⟨?_, hl⟩
      intro z hz
      rcases List.mem_cons.mp hz with rfl | hzys
      · omega
      · exact Nat.le_trans (hy z hzys) (by omega)

theorem sortDescBy_sorted (l : List α) :
    List.Pairwise (fun a b => f b ≤ f a) (sortDescBy f l) := by
  rw [sortDescBy]
  suffices h : ∀ acc, List.Pairwise (fun a b => f b ≤ f a) acc →
      List.Pairwise (fun a b => f b ≤ f a)
        (l.foldl (fun acc x => insertStable f x acc) acc) by
    exact h [] (by simp)
  induction l with
  | nil => intro acc hacc; simpa using hacc
  | cons x xs ih =>
    intro acc hacc
    rw [List.foldl_cons]
    exact ih _ (insertStable_sorted f x acc hacc)

theorem insertStable_perm (x : α) (l : List α) :
    List.Perm (insertStable f x l) (x :: l) := by
  induction l with
  | nil => simp [insertStable]
  | cons y ys ih =>
    rw [insertStable]
    by_cases h : f x ≤ f y
    · rw [if_pos h]
      exact List.Perm.trans (List.Perm.cons y ih) (List.Perm.swap x y ys)
    · rw [if_neg h]

theorem sortDescBy_perm (l : List α) : List.Perm (sortDescBy f l) l := by
  rw [sortDescBy]
  suffices h : ∀ acc,
      List.Perm (l.foldl (fun acc x => insertStable f x acc) acc) (acc ++ l) by
    simpa using h []
  induction l with
  | nil => intro acc; simp
  | cons x xs ih =>
    intro acc
    rw [List.foldl_cons]
    refine (ih (insertStable f x acc)).trans ?_
    refine List.Perm.trans (List.Perm.append_right xs (insertStable_perm f x acc)) ?_
    exact List.perm_middle.symm

theorem insertStable_filter_eq (x : α) (l : List α) (k : Nat)
    (hl : List.Pairwise (fun a b => f b ≤ f a) l) :
    (insertStable f x l).filter (fun a => f a == k)
      = if f x = k then l.filter (fun a => f a == k) ++ [x]
        else l.filter (fun a => f a == k) := by
  induction l with
  | nil =>
    rw [insertStable]
    by_cases hk : f x = k
    · simp [List.filter_singleton, hk]
    · simp [List.filter_singleton, hk]
  | cons y ys ih =>
    obtain ⟨hy, hys⟩ := List.pairwise_cons.mp hl
    rw [insertStable]
    by_cases h : f x ≤ f y
    · rw [if_pos h]
      by_cases hyk : f y = k <;> by_cases hxk : f x = k <;>
        simp [List.filter_cons, hyk, hxk, ih hys]
    · rw [if_neg h]
      by_cases hxk : f x = k
      · have hnil : (y :: ys).filter (fun a => f a == k) = [] := by
          rw [List.filter_eq_nil_iff]
          intro z hz
          rcases List.mem_cons.mp hz with rfl | hzys
          · simp only [beq_iff_eq]; omega
          · have := hy z hzys
            simp only [beq_iff_eq]; omega
        rw [if_pos hxk, List.filter_cons, hnil]
        simp [hxk]
      · rw [if_neg hxk, List.filter_cons]
        simp [hxk]

theorem sortDescBy_filter_eq (l : List α) (k : Nat) :
    (sortDescBy f l).filter (fun a => f a == k)
      = l.filter (fun a => f a == k) := by
  rw [sortDescBy]
  suffices h : ∀ acc, List.Pairwise (fun a b => f b ≤ f a) acc →
      (l.foldl (fun acc x => insertStable f x acc) acc).filter (fun a => f a == k)
        = acc.filter (fun a => f a == k) ++ l.filter (fun a => f a == k) by
    simpa using h [] (by simp)
  induction l with
  | nil => intro acc hacc; simp
  | cons x xs ih =>
    intro acc hacc
    rw [List.foldl_cons, ih _ (insertStable_sorted f x acc hacc),
      insertStable_filter_eq f x acc k hacc, List.filter_cons]
    by_cases hxk : f x = k
    · simp [hxk, List.append_assoc]
    · simp [hxk]

end SortLemmas

/-- C5: the term list is at most `TOP_N_WORDS` long, is sorted by count
descending, and for every count value the terms having that count appear in
the same relative order as in the counter's first-encountered enumeration
(stability of the tie order). -/
theorem claim_C5 (files : List MdFile) :
    (findFrequentWords files).length ≤ TOP_N_WORDS
    ∧ List.Pairwise (fun p q => q.2 ≤ p.2) (findFrequentWords files)
    ∧ ∀ k : Nat, List.Sublist
        ((findFrequentWords files).filter (fun p => p.2 == k))
        ((counterItems (gatherWordsAndErrors files).1).filter (fun p => p.2 == k)) := by
  refine ⟨?_, ?_, ?_⟩
  · simp only [findFrequentWords]
    exact List.length_take_le _ _
  · simp only [findFrequentWords]
    exact List.Pairwise.sublist (List.take_sublist _ _) (sortDescBy_sorted Prod.snd _)
  · intro k
    simp only [findFrequentWords]
    refine List.Sublist.trans ((List.take_sublist _ _).filter _) ?_
    rw [sortDescBy_filter_eq Prod.snd _ k]
    exact (List.filter_sublist _).filter _

theorem bump_keys (l : List (List Char × Nat)) (w : List Char) :
    ((bump l w).map Prod.fst = l.map Prod.fst ∧ w ∈ l.map Prod.fst)
    ∨ ((bump l w).map Prod.fst = l.map Prod.fst ++ [w] ∧ w ∉ l.map Prod.fst) := by
  induction l with
  | nil => right; simp [bump]
  | cons p ps ih =>
    obtain ⟨x, c⟩ := p
    rw [bump]
    by_cases hx : x = w
    · subst hx
      rw [if_pos rfl]
      left
      simp
    · rw [if_neg hx]
      rcases ih with ⟨heq, hmem⟩ | ⟨heq, hmem⟩
      · left
        refine ⟨by simp [heq], by simp [hmem]⟩
      · right
        refine ⟨by simp [heq], ?_⟩
        simp only [List.map_cons, List.mem_cons]
        push_neg
        exact ⟨fun h => hx h.symm, hmem⟩

theorem counterItems_keys_nodup (ws : List (List Char)) :
    ((counterItems ws).map Prod.fst).Nodup := by
  rw [counterItems]
  suffices h : ∀ acc : List (List Char × Nat), (acc.map Prod.fst).Nodup →
      ((ws.foldl bump acc).map Prod.fst).Nodup by
    exact h [] (by simp)
  induction ws with
  | nil => intro acc hacc; simpa using hacc
  | cons w ws ih =>
    intro acc hacc
    rw [List.foldl_cons]
    refine ih _ ?_
    rcases bump_keys acc w with ⟨heq, _⟩ | ⟨heq, hmem⟩
    · rw [heq]; exact hacc
    · rw [heq, List.nodup_append]
      refine ⟨hacc, List.nodup_singleton w, ?_⟩
      intro a ha hb
      rw [List.mem_singleton] at hb
      subst hb
      exact hmem ha

theorem key_count_unique {l : List (List Char × Nat)}
    (h : (l.map Prod.fst).Nodup) {w : List Char} {c1 c2 : Nat}
    (h1 : (w, c1) ∈ l) (h2 : (w, c2) ∈ l) : c1 = c2 := by
  induction l with
  | nil => simp at h1
  | cons p ps ih =>
    rw [List.map_cons, List.nodup_cons] at h
    obtain ⟨hnp, hnd⟩ := h
    rcases List.mem_cons.mp h1 with h1' | h1'
    · rcases List.mem_cons.mp h2 with h2' | h2'
      · rw [← h1'] at h2'
        injection h2' with _ hc
        exact hc.symm
      · exfalso
        apply hnp
        have hw : w ∈ ps.map Prod.fst := List.mem_map_of_mem Prod.fst h2'
        rw [← h1']
        exact hw
    · rcases List.mem_cons.mp h2 with h2' | h2'
      · exfalso
        apply hnp
        have hw : w ∈ ps.map Prod.fst := List.mem_map_of_mem Prod.fst h1'
        rw [← h2']
        exact hw
      · exact ih hnd h1' h2'

/-- C6: a term counted exactly `MIN_FREQUENCY - 1` times is excluded from
the produced term list; a term counted exactly `MIN_FREQUENCY` times
survives the frequency filter and appears in the ranked list (membership in
the final list then only depends on the top-N truncation). -/
theorem claim_C6 (files : List MdFile) (w : List Char) :
    ((w, MIN_FREQUENCY - 1) ∈ counterItems (gatherWordsAndErrors files).1 →
      ∀ c, (w, c) ∉ findFrequentWords files)
    ∧ ((w, MIN_FREQUENCY) ∈ counterItems (gatherWordsAndErrors files).1 →
      (w, MIN_FREQUENCY) ∈ sortDescBy Prod.snd
        ((counterItems (gatherWordsAndErrors files).1).filter
          (fun p => MIN_FREQUENCY ≤ p.2))) := by
  constructor
  · intro h1 c hc
    simp only [findFrequentWords] at hc
    have hmem1 := List.mem_of_mem_take hc
    have hmem2 := ((sortDescBy_perm Prod.snd _).mem_iff).mp hmem1
    obtain ⟨hin, hfreq⟩ := List.mem_filter.mp hmem2
    have hceq : c = MIN_FREQUENCY - 1 :=
      key_count_unique (counterItems_keys_nodup _) hin h1
    rw [MIN_FREQUENCY] at hceq
    simp only [MIN_FREQUENCY, decide_eq_true_eq] at hfreq
    omega
  · intro h2
    refine ((sortDescBy_perm Prod.snd _).mem_iff).mpr ?_
    refine List.mem_filter.mpr ⟨h2, by simp [MIN_FREQUENCY]⟩

/-- C6, witness: over a corpus where `"word"` occurs once it is excluded;
over a corpus where it occurs twice it reaches the ranked list. -/
theorem claim_C6_witness :
    (∀ c, ("word".toList, c) ∉ findFrequentWords [("a.md", Except.ok "word")])
    ∧ ("word".toList, MIN_FREQUENCY) ∈ sortDescBy Prod.snd
        ((counterItems
            (gatherWordsAndErrors [("b.md", Except.ok "word word")]).1).filter
          (fun p => MIN_FREQUENCY ≤ p.2)) :=
  ⟨(claim_C6 [("a.md", Except.ok "word")] "word".toList).1 (by decide),
   (claim_C6 [("b.md", Except.ok "word word")] "word".toList).2 (by decide)⟩

theorem gatherStep_fst (acc : List (List Char) × List (String × String))
    (f : MdFile) : (gatherStep acc f).1 = acc.1 ++ (gatherStep ([], []) f).1 := by
  rcases f with ⟨name, res⟩
  cases res <;> simp [gatherStep]

theorem gatherStep_snd (acc : List (List Char) × List (String × String))
    (f : MdFile) : (gatherStep acc f).2 = acc.2 ++ (gatherStep ([], []) f).2 := by
  rcases f with ⟨name, res⟩
  cases res <;> simp [gatherStep]

theorem gather_fst_acc (files : List MdFile) :
    ∀ acc, (files.foldl gatherStep acc).1
      = acc.1 ++ (files.foldl gatherStep ([], [])).1 := by
  induction files with
  | nil => intro acc; simp
  | cons f fs ih =>
    intro acc
    rw [List.foldl_cons, List.foldl_cons, ih (gatherStep acc f),
      ih (gatherStep ([], []) f), gatherStep_fst acc f, List.append_assoc]

theorem gather_snd_acc (files : List MdFile) :
    ∀ acc, (files.foldl gatherStep acc).2
      = acc.2 ++ (files.foldl gatherStep ([], [])).2 := by
  induction files with
  | nil => intro acc; simp
  | cons f fs ih =>
    intro acc
    rw [List.foldl_cons, List.foldl_cons, ih (gatherStep acc f),
      ih (gatherStep ([], []) f), gatherStep_snd acc f, List.append_assoc]

theorem gather_fst_filter (files : List MdFile) :
    (gatherWordsAndErrors files).1
      = (gatherWordsAndErrors (files.filter readOk)).1 := by
  induction files with
  | nil => rfl
  | cons f fs ih =>
    rcases f with ⟨name, res⟩
    simp only [gatherWordsAndErrors] at ih ⊢
    cases res with
    | ok content =>
      have hkeep : ((name, Except.ok content) :: fs).filter readOk
          = (name, Except.ok content) :: fs.filter readOk := by
        simp [List.filter_cons, readOk]
      rw [hkeep, List.foldl_cons, List.foldl_cons,
        gather_fst_acc fs (gatherStep ([], []) (name, Except.ok content)),
        gather_fst_acc (fs.filter readOk)
          (gatherStep ([], []) (name, Except.ok content)), ih]
    | error e =>
      have hdrop : ((name, Except.error e) :: fs).filter readOk
          = fs.filter readOk := by
        simp [List.filter_cons, readOk]
      rw [hdrop, List.foldl_cons,
        gather_fst_acc fs (gatherStep ([], []) (name, Except.error e))]
      simp [gatherStep, ih]

theorem gather_snd_filterMap (files : List MdFile) :
    (gatherWordsAndErrors files).2
      = files.filterMap (fun f =>
          match f.2 with
          | .error e => some (f.1, e)
          | .ok _ => none) := by
  induction files with
  | nil => rfl
  | cons f fs ih =>
    rcases f with ⟨name, res⟩
    rw [gatherWordsAndErrors, List.foldl_cons, gather_snd_acc]
    rw [gatherWordsAndErrors] at ih
    cases res with
    | ok content => simpa [gatherStep, List.filterMap_cons] using ih
    | error e => simpa [gatherStep, List.filterMap_cons] using ih

/-- C8: the term list is computed over exactly the successfully-read
documents — filtering out the failing documents does not change the result —
and every failing document is recorded with its name and error cause; being
a total function, the analyzer never aborts the batch. -/
theorem claim_C8 (files : List MdFile) :
    findFrequentWords files = findFrequentWords (files.filter readOk)
    ∧ (gatherWordsAndErrors files).2
      = files.filterMap (fun f =>
          match f.2 with
          | .error e => some (f.1, e)
          | .ok _ => none) := by
  constructor
  · simp only [findFrequentWords]
    rw [gather_fst_filter]
  · exact gather_snd_filterMap files

/-- The characters `pyLower` maps to something else: ASCII and Spanish
uppercase letters. -/
def upperChars : List Char :=
  ['A', 'B', 'C', 'D', 'E', 'F', 'G', 'H', 'I', 'J', 'K', 'L', 'M',
   'N', 'O', 'P', 'Q', 'R', 'S', 'T', 'U', 'V', 'W', 'X', 'Y', 'Z',
   'Á', 'É', 'Í', 'Ó', 'Ú', 'Ñ', 'Ü']

theorem pyLower_eq_self {c : Char} (h : c ∉ upperChars) : pyLower c = c := by
  unfold pyLower
  split
  all_goals first
    | rfl
    | (exact absurd (by decide) h)

theorem pyLower_idem (c : Char) : pyLower (pyLower c) = pyLower c := by
  by_cases h : c ∈ upperChars
  · fin_cases h <;> decide
  · rw [pyLower_eq_self h]
    exact pyLower_eq_self h

theorem stripTrailingNonWord_sublist (l : List Char) :
    List.Sublist (stripTrailingNonWord l) l := by
  rw [stripTrailingNonWord]
  have h2 := (List.dropWhile_sublist (fun c => !pyIsWordChar c)
    (l := l.reverse)).reverse
  rwa [List.reverse_reverse] at h2

theorem pyStrip_sublist (l : List Char) : List.Sublist (pyStrip l) l := by
  rw [pyStrip]
  have h1 : List.Sublist (l.dropWhile pyIsSpace) l := List.dropWhile_sublist _
  have h2 := (List.dropWhile_sublist pyIsSpace
    (l := (l.dropWhile pyIsSpace).reverse)).reverse
  rw [List.reverse_reverse] at h2
  exact h2.trans h1

theorem normalizeWord_sublist (w : List Char) :
    List.Sublist (normalizeWord w) (w.map pyLower) :=
  (stripTrailingNonWord_sublist _).trans (pyStrip_sublist _)

theorem foldl_keep_eq_filterMap (l : List (List Char)) :
    ∀ acc : List (List Char),
      l.foldl (fun filtered w =>
        let n := normalizeWord w
        if keepWord n then filtered ++ [n] else filtered) acc
      = acc ++ l.filterMap (fun w =>
          let n := normalizeWord w
          if keepWord n then some n else none) := by
  induction l with
  | nil => intro acc; simp
  | cons w ws ih =>
    intro acc
    rw [List.foldl_cons, ih, List.filterMap_cons]
    by_cases hp : keepWord (normalizeWord w)
    · simp only [hp, if_true]
      rw [List.append_assoc]
      rfl
    · simp [hp]

/-- C7: `extract_words` is exactly the in-order filtering (duplicates
retained) of the word-boundary tokens of the lowercased text, each
normalized; and every produced term has at least the minimum length, is
entirely alphabetic, is lowercase-invariant, is no stopword, and is the
normalization of a word-boundary token of the lowercased source. -/
theorem claim_C7 (text : List Char) :
    extractWords text
      = (tokenize (text.map pyLower)).filterMap (fun w =>
          let n := normalizeWord w
          if keepWord n then some n else none)
    ∧ ∀ n, n ∈ extractWords text →
        MIN_WORD_LENGTH ≤ n.length
        ∧ (∀ c ∈ n, pyIsAlpha c = true)
        ∧ (∀ c ∈ n, pyLower c = c)
        ∧ isStopword n = false
        ∧ ∃ tok, tok ∈ tokenize (text.map pyLower) ∧ n = normalizeWord tok := by
  have heq : extractWords text
      = (tokenize (text.map pyLower)).filterMap (fun w =>
          let n := normalizeWord w
          if keepWord n then some n else none) := by
    rw [extractWords, foldl_keep_eq_filterMap]
    rfl
  refine ⟨heq, ?_⟩
  intro n hn
  rw [heq] at hn
  obtain ⟨tok, htok, hf⟩ := List.mem_filterMap.mp hn
  by_cases hk : keepWord (normalizeWord tok)
  · simp only [hk, if_true] at hf
    injection hf with hf'
    subst hf'
    rw [keepWord] at hk
    simp only [Bool.and_eq_true, Bool.not_eq_true', decide_eq_true_eq] at hk
    obtain ⟨⟨hlen, hstop⟩, halpha⟩ := hk
    rw [pyIsAlphaStr, Bool.and_eq_true] at halpha
    refine ⟨hlen, ?_, ?_, hstop, tok, htok, rfl⟩
    · intro c hc
      exact List.all_eq_true.mp halpha.2 c hc
    · intro c hc
      have hmem : c ∈ tok.map pyLower :=
        (normalizeWord_sublist tok).subset hc
      obtain ⟨c0, _, rfl⟩ := List.mem_map.mp hmem
      exact pyLower_idem c0
  · simp [hk] at hf

/-- C7, witness: on the text `"A data!"` the produced term `"data"` has all
the required properties. -/
theorem claim_C7_witness :
    MIN_WORD_LENGTH ≤ "data".toList.length
    ∧ (∀ c ∈ "data".toList, pyIsAlpha c = true)
    ∧ (∀ c ∈ "data".toList, pyLower c = c)
    ∧ isStopword "data".toList = false
    ∧ ∃ tok, tok ∈ tokenize ("A data!".toList.map pyLower)
        ∧ "data".toList = normalizeWord tok :=
  (claim_C7 "A data!".toList).2 "data".toList (by decide)

end NotionObsidian
